import Mathlib

/-!
Shallow embedding of the ENSA pipeline scripts
(`scripts/restructure_data.py`, `scripts/restructure_data_chunk.py`,
`scripts/enrich_data_2.py`) and proofs about them.

Tables are lists of records.  A pandas `NaN` / Python `None` cell is
modelled as `Option.none`.  External web services are modelled as
functions (a deterministic environment): each HTTP interaction is a
value of `ApiResp` that records whether the request raised, its status
code, and whether the response body parsed.  Filenames are modelled as
their lists of character code points (`List Nat`), which is exactly the
ordering Python's string sort compares by.
-/

namespace ENSA

/-! ## Decimal rendering of numbers and lexicographic filename order

Python renders the row index with an f-string (`f"checkpoint_{idx+1}.csv"`),
i.e. as unpadded decimal digits.  `natToDec n` is the list of code points of
the decimal rendering of `n`.  The auxiliary function carries fuel so that
the definition is structurally recursive (the fuel `n + 1` always suffices).
-/

def decDigitsAux : Nat → Nat → List Nat
  | 0, _ => []
  | fuel + 1, n =>
    if n < 10 then [48 + n] else decDigitsAux fuel (n / 10) ++ [48 + n % 10]

def natToDec (n : Nat) : List Nat :=
  decDigitsAux (n + 1) n

/-- Decode a list of decimal digit code points back to the number. -/
def decVal (l : List Nat) : Nat :=
  l.foldl (fun a c => 10 * a + (c - 48)) 0

/-- Lexicographic comparison of code-point lists: exactly how Python's
`sorted` compares strings. -/
def lexLe : List Nat → List Nat → Bool
  | [], _ => true
  | _ :: _, [] => false
  | a :: as, b :: bs => if a < b then true else if b < a then false else lexLe as bs

/-- Code points of an ASCII string literal. -/
def strCodes (s : String) : List Nat :=
  s.data.map Char.toNat

/-- Number of decimal digits in the rendering of `n`. -/
def digitLen (n : Nat) : Nat :=
  (natToDec n).length

/-! ## Degree Aggregator (`restructure_data.py` / `restructure_data_chunk.py`) -/

/-- One interaction record; only the two name columns are read by the
pipeline, and either may be missing (`NaN`). -/
structure Interaction where
  sourceTaxonName : Option String
  targetTaxonName : Option String
deriving DecidableEq

/-- `pd.concat([source column, target column])`: all source-name cells
followed by all target-name cells, missing cells included. -/
def speciesList (rows : List Interaction) : List (Option String) :=
  rows.map Interaction.sourceTaxonName ++ rows.map Interaction.targetTaxonName

/-- The `all_species` accumulation loop of `process_chunks`: starting from an
empty frame, append each chunk's source-then-target name cells. -/
def allSpecies (chunks : List (List Interaction)) : List (Option String) :=
  chunks.foldl (fun acc c => acc ++ speciesList c) []

/-- Insert a `(name, count)` pair into a list sorted by descending count. -/
def insertByCountDesc (p : String × Nat) : List (String × Nat) → List (String × Nat)
  | [] => [p]
  | q :: qs => if q.2 < p.2 then p :: q :: qs else q :: insertByCountDesc p qs

/-- Sort `(name, count)` pairs by descending count (the order
`value_counts` reports). -/
def sortByCountDesc : List (String × Nat) → List (String × Nat)
  | [] => []
  | p :: ps => insertByCountDesc p (sortByCountDesc ps)

/-- `value_counts().reset_index()`: drop missing cells, count occurrences of
each distinct name, and list the `(name, count)` pairs by descending count. -/
def value_counts (l : List (Option String)) : List (String × Nat) :=
  sortByCountDesc (((l.filterMap id).dedup).map (fun n => (n, (l.filterMap id).count n)))

/-- The chunked Degree Aggregator (`process_chunks`). -/
def process_chunks (chunks : List (List Interaction)) : List (String × Nat) :=
  value_counts (allSpecies chunks)

/-- The one-pass Degree Aggregator (`restructure_data.py`, module level). -/
def restructure_data (rows : List Interaction) : List (String × Nat) :=
  value_counts (speciesList rows)

/-- The degree table read as a mapping from taxon name to count. -/
def tableAsMap (t : List (String × Nat)) : String → Option Nat :=
  fun n => t.lookup n

/-! ## Chunk Splitter (`split_large_csv`) -/

/-- `pd.read_csv(input_file, chunksize=C)`: cut the row list into successive
chunks of `C` rows (the head chunk is written as `x :: take (C-1) xs`, which
equals `take C l` whenever `0 < C`, so that the recursion terminates for
every `C`). -/
def split_large_csv (chunkSize : Nat) : List α → List (List α)
  | [] => []
  | x :: xs =>
    (x :: xs.take (chunkSize - 1)) :: split_large_csv chunkSize (xs.drop (chunkSize - 1))
termination_by l => l.length
decreasing_by simp [List.length_drop]; omega

/-- The i-th chunk is written to a file named `{base}_chunk_{i}.csv`. -/
def chunkFileName (base : List Nat) (i : Nat) : List Nat :=
  base ++ strCodes "_chunk_" ++ natToDec i ++ strCodes ".csv"

/-- Expected chunk sizes for a source of `n` rows and chunk size `C`
(fuel-structural so that it evaluates; fuel `n` always suffices). -/
def chunkLensAux (C : Nat) : Nat → Nat → List Nat
  | 0, _ => []
  | _ + 1, 0 => []
  | fuel + 1, n + 1 => min C (n + 1) :: chunkLensAux C fuel (n + 1 - C)

def chunkLens (C n : Nat) : List Nat :=
  chunkLensAux C n n

/-! ## Checkpointed Enricher (`enrich_data_2.py`) -/

/-- One row of the degree table being enriched.  The three enrichment
columns are `None` until filled. -/
structure Row where
  taxon_name : String
  degree : Nat
  attention_ss : Option Nat
  attention_pm : Option Nat
  year_ofd : Option Nat
deriving DecidableEq

/-- The three external services, as deterministic value-level functions
(spec section 1 treats them as black-box `lookup(name)` functions). -/
structure Oracle where
  ss : String → Nat
  pm : String → Nat
  yr : String → Option Nat

/-- A record of one external query being issued. -/
inductive Query where
  | ss : String → Query
  | pm : String → Query
  | yr : String → Query
deriving DecidableEq

/-- The skip test of the loop: `not isna(attention_ss) and not
isna(attention_pm) and not isna(year_ofd)`. -/
def rowComplete (r : Row) : Bool :=
  r.attention_ss.isSome && r.attention_pm.isSome && r.year_ofd.isSome

/-- The three per-field conditionals of the loop body, in source order
(Semantic Scholar, then PubMed, then Wikidata), also recording which
queries were issued. -/
def fillRowQ (o : Oracle) (r : Row) : Row × List Query :=
  let name := r.taxon_name
  let s1 :=
    if r.attention_ss.isNone then
      ({ r with attention_ss := some (o.ss name) }, [Query.ss name])
    else (r, [])
  let s2 :=
    if s1.1.attention_pm.isNone then
      ({ s1.1 with attention_pm := some (o.pm name) }, [Query.pm name])
    else (s1.1, [])
  let s3 :=
    if s2.1.year_ofd.isNone then
      ({ s2.1 with year_ofd := o.yr name }, [Query.yr name])
    else (s2.1, [])
  (s3.1, s1.2 ++ s2.2 ++ s3.2)

def fillRow (o : Oracle) (r : Row) : Row :=
  (fillRowQ o r).1

/-- One iteration of the enrichment loop on one row: skip (no queries)
when all three fields are present, otherwise run the per-field
conditionals. -/
def processRow (o : Oracle) (r : Row) : Row × List Query :=
  if rowComplete r then (r, []) else fillRowQ o r

def procRow (o : Oracle) (r : Row) : Row :=
  (processRow o r).1

/-- The enrichment loop `for idx in range(total_rows)` with the table
split as processed prefix `done` and remaining suffix `todo`
(`idx = done.length`).  A checkpoint — the pair of `idx + 1` and the
entire current table — is recorded when `(idx + 1) % B == 0` or
`idx == N - 1`; rows that are already complete are skipped by `continue`,
which also skips the checkpoint statement. -/
def enrichGo (o : Oracle) (B N : Nat) :
    List Row → List Row → List (Nat × List Row) → List Row × List (Nat × List Row)
  | done, [], cps => (done, cps)
  | done, r :: rest, cps =>
    if rowComplete r then
      enrichGo o B N (done ++ [r]) rest cps
    else
      let rP := fillRow o r
      if (done.length + 1) % B = 0 ∨ done.length = N - 1 then
        enrichGo o B N (done ++ [rP]) rest (cps ++ [(done.length + 1, done ++ [rP] ++ rest)])
      else
        enrichGo o B N (done ++ [rP]) rest cps

/-- One pass of `enrich_taxon_data` over a starting table `t` with batch
size `B`: returns the final table (written to the output file) and the
list of checkpoints written, in order. -/
def enrich_taxon_data (o : Oracle) (B : Nat) (t : List Row) : List Row × List (Nat × List Row) :=
  enrichGo o B t.length [] t []

/-- The checkpoint filename `f"checkpoint_{k}.csv"`, as code points. -/
def checkpointFile (k : Nat) : List Nat :=
  strCodes "checkpoint_" ++ natToDec k ++ strCodes ".csv"

def maxStep (best g : List Nat) : List Nat :=
  if lexLe best g then g else best

/-- `sorted(checkpoint_files)[-1]`: the last element of the Python string
sort of the filenames, i.e. the lexicographically greatest one. -/
def lastSorted : List (List Nat) → Option (List Nat)
  | [] => none
  | f :: fs => some (fs.foldl maxStep f)

/-- Startup checkpoint discovery (`enrich_taxon_data`, checkpoint block):
given the fresh input table and the checkpoint directory contents — pairs
of row index and saved table, whose filenames are `checkpoint_{k}.csv` —
load the file selected by `sorted(...)[-1]`, or the fresh input if no
checkpoint exists. -/
def resumeTable (input : List Row) (cps : List (Nat × List Row)) : List Row :=
  match lastSorted (cps.map (fun p => checkpointFile p.1)) with
  | none => input
  | some f => (((cps.map (fun p => (checkpointFile p.1, p.2))).lookup f).getD input)

/-! ## The external call boundary (`get_semantic_scholar_attention`,
`get_pubmed_attention`, `get_wikidata_year`) -/

/-- What one HTTP interaction can look like from the caller: the request
raised an exception, or returned a status code together with a body that
either parsed to `α` or raises when parsed (`none`, e.g. malformed JSON). -/
inductive ApiResp (α : Type) where
  | exn : ApiResp α
  | ok : Nat → Option α → ApiResp α

/-- Parsed Semantic Scholar body: the `total` field may be absent. -/
structure SSBody where
  total : Option Nat

/-- Parsed PubMed body: the extracted `esearchresult.count`, absent when
the chain of `get`s or `int(...)` would not produce a number. -/
structure PMBody where
  count : Option Nat

/-- Parsed Wikidata body: the year extracted from the first binding's
`inception`, absent when there is no binding, no inception, or the year
does not parse as digits. -/
structure WDBody where
  inceptionYear : Option Nat

def get_semantic_scholar_attention : ApiResp SSBody → Nat
  | ApiResp.exn => 0
  | ApiResp.ok status body =>
    if status = 200 then
      match body with
      | none => 0
      | some data => data.total.getD 0
    else 0

def get_pubmed_attention : ApiResp PMBody → Nat
  | ApiResp.exn => 0
  | ApiResp.ok status body =>
    if status = 200 then
      match body with
      | none => 0
      | some data => data.count.getD 0
    else 0

def get_wikidata_year : ApiResp WDBody → Option Nat
  | ApiResp.exn => none
  | ApiResp.ok status body =>
    if status = 200 then
      match body with
      | none => none
      | some data => data.inceptionYear
    else none

/-- An external-call failure: a raised exception, a non-200 status, or a
body that raises when parsed.  (This is a superset of the spec's
"non-2xx or exception" failures.) -/
def apiFailed {α : Type} : ApiResp α → Bool
  | ApiResp.exn => true
  | ApiResp.ok status body => status != 200 || body.isNone

/-- The response environment: what each service returns for each name. -/
structure ApiEnv where
  ssResp : String → ApiResp SSBody
  pmResp : String → ApiResp PMBody
  yrResp : String → ApiResp WDBody

/-- The oracle realised by routing each query through the corresponding
`get_*` call boundary. -/
def envOracle (e : ApiEnv) : Oracle where
  ss := fun n => get_semantic_scholar_attention (e.ssResp n)
  pm := fun n => get_pubmed_attention (e.pmResp n)
  yr := fun n => get_wikidata_year (e.yrResp n)

/-! ## Concrete values used by witnesses and counterexamples -/

/-- An oracle whose lookups always come back empty. -/
def oZero : Oracle where
  ss := fun _ => 0
  pm := fun _ => 0
  yr := fun _ => none

/-- An environment in which every request raises. -/
def envFail : ApiEnv where
  ssResp := fun _ => ApiResp.exn
  pmResp := fun _ => ApiResp.exn
  yrResp := fun _ => ApiResp.exn

/-- An environment in which every request succeeds with concrete data. -/
def envGood : ApiEnv where
  ssResp := fun _ => ApiResp.ok 200 (some { total := some 7 })
  pmResp := fun _ => ApiResp.ok 200 (some { count := some 3 })
  yrResp := fun _ => ApiResp.ok 200 (some { inceptionYear := some 1758 })

def rowEmpty : Row :=
  { taxon_name := "Felis catus", degree := 2
    attention_ss := none, attention_pm := none, year_ofd := none }

def rowEmpty2 : Row :=
  { taxon_name := "Mus musculus", degree := 2
    attention_ss := none, attention_pm := none, year_ofd := none }

def rowEmpty3 : Row :=
  { taxon_name := "Canis lupus", degree := 1
    attention_ss := none, attention_pm := none, year_ofd := none }

def rowDone : Row :=
  { taxon_name := "Felis catus", degree := 2
    attention_ss := some 5, attention_pm := some 4, year_ofd := some 1758 }

/-- A concrete chunked dataset for witnesses. -/
def chunksW : List (List Interaction) :=
  [[{ sourceTaxonName := some "Felis catus", targetTaxonName := some "Mus musculus" }],
   [{ sourceTaxonName := some "Mus musculus", targetTaxonName := none }]]

/-- The corresponding un-chunked dataset. -/
def rowsW : List Interaction :=
  chunksW.flatten

/-! ## Lemmas: decimal rendering -/

theorem decDigitsAux_fuel : ∀ n f g, n < f → n < g → decDigitsAux f n = decDigitsAux g n := by
  intro n
  induction n using Nat.strong_induction_on with
  | _ n ih =>
    intro f g hf hg
    obtain ⟨f, rfl⟩ : ∃ k, f = k + 1 := ⟨f - 1, by omega⟩
    obtain ⟨g, rfl⟩ : ∃ k, g = k + 1 := ⟨g - 1, by omega⟩
    by_cases h10 : n < 10
    · simp [decDigitsAux, h10]
    · have hdiv : n / 10 < n := by omega
      simp only [decDigitsAux, if_neg h10]
      rw [ih (n / 10) hdiv f (n / 10 + 1) (by omega) (by omega),
        ih (n / 10) hdiv g (n / 10 + 1) (by omega) (by omega)]

theorem natToDec_eq (n : Nat) :
    natToDec n = if n < 10 then [48 + n] else natToDec (n / 10) ++ [48 + n % 10] := by
  by_cases h10 : n < 10
  · rw [if_pos h10]
    simp [natToDec, decDigitsAux, h10]
  · rw [if_neg h10]
    show decDigitsAux (n + 1) n = natToDec (n / 10) ++ [48 + n % 10]
    rw [show decDigitsAux (n + 1) n
        = if n < 10 then [48 + n] else decDigitsAux n (n / 10) ++ [48 + n % 10] from rfl]
    rw [if_neg h10, decDigitsAux_fuel (n / 10) n (n / 10 + 1) (by omega) (by omega)]
    rfl

theorem decVal_natToDec : ∀ n, decVal (natToDec n) = n := by
  intro n
  induction n using Nat.strong_induction_on with
  | _ n ih =>
    rw [natToDec_eq n]
    by_cases h10 : n < 10
    · rw [if_pos h10]
      simp [decVal]
    · rw [if_neg h10]
      have hstep : decVal (natToDec (n / 10) ++ [48 + n % 10])
          = 10 * decVal (natToDec (n / 10)) + (48 + n % 10 - 48) := by
        simp [decVal, List.foldl_append]
      rw [hstep, ih (n / 10) (by omega)]
      omega

theorem natToDec_inj : Function.Injective natToDec := by
  intro a b h
  have ha := decVal_natToDec a
  rw [h, decVal_natToDec b] at ha
  exact ha.symm

theorem natToDec_ne_nil (n : Nat) : natToDec n ≠ [] := by
  rw [natToDec_eq n]
  by_cases h10 : n < 10 <;> simp [h10]

theorem digitLen_pos (n : Nat) : 0 < digitLen n := by
  have h := natToDec_ne_nil n
  unfold digitLen
  cases hd : natToDec n
  · exact absurd hd h
  · simp

theorem digitLen_small (n : Nat) (h : n < 10) : digitLen n = 1 := by
  unfold digitLen
  rw [natToDec_eq n]
  simp [h]

theorem digitLen_big (n : Nat) (h : ¬ n < 10) : digitLen n = digitLen (n / 10) + 1 := by
  unfold digitLen
  rw [natToDec_eq n]
  simp [h]

/-! ## Lemmas: lexicographic order on code-point lists -/

theorem lexLe_refl : ∀ l, lexLe l l = true := by
  intro l
  induction l with
  | nil => rfl
  | cons a as ih => simp [lexLe, ih]

theorem lexLe_trans : ∀ a b c, lexLe a b = true → lexLe b c = true → lexLe a c = true := by
  intro a
  induction a with
  | nil =>
    intro b c h1 h2
    rfl
  | cons x xs ih =>
    intro b c h1 h2
    cases b with
    | nil => simp [lexLe] at h1
    | cons y ys =>
      cases c with
      | nil => simp [lexLe] at h2
      | cons z zs =>
        simp only [lexLe] at h1 h2 ⊢
        split at h1
        next hxy =>
          split at h2
          next hyz => simp [show x < z by omega]
          next hyz =>
            split at h2
            next hzy => simp at h2
            next hzy =>
              have hyzeq : y = z := by omega
              subst hyzeq
              simp [hxy]
        next hxy =>
          split at h1
          next hyx => simp at h1
          next hyx =>
            have hxyeq : x = y := by omega
            subst hxyeq
            split at h2
            next hyz => simp [hyz]
            next hyz =>
              split at h2
              next hzy => simp at h2
              next hzy =>
                have hxzeq : x = z := by omega
                subst hxzeq
                simp [ih ys zs h1 h2]

theorem lexLe_total : ∀ a b, lexLe a b = true ∨ lexLe b a = true := by
  intro a
  induction a with
  | nil =>
    intro b
    left
    rfl
  | cons x xs ih =>
    intro b
    cases b with
    | nil =>
      right
      rfl
    | cons y ys =>
      simp only [lexLe]
      rcases Nat.lt_trichotomy x y with h | h | h
      · left; simp [h]
      · subst h
        rcases ih ys with h2 | h2
        · left; simp [h2]
        · right; simp [h2]
      · right; simp [h]

theorem lexLe_antisymm : ∀ a b, lexLe a b = true → lexLe b a = true → a = b := by
  intro a
  induction a with
  | nil =>
    intro b h1 h2
    cases b with
    | nil => rfl
    | cons y ys => simp [lexLe] at h2
  | cons x xs ih =>
    intro b h1 h2
    cases b with
    | nil => simp [lexLe] at h1
    | cons y ys =>
      simp only [lexLe] at h1 h2
      have hxy : x = y := by
        by_contra hne
        rcases Nat.lt_trichotomy x y with h | h | h
        · rw [if_neg (by omega), if_pos h] at h2
          simp at h2
        · exact hne h
        · rw [if_neg (by omega), if_pos h] at h1
          simp at h1
      subst hxy
      simp only [lt_self_iff_false, if_false] at h1 h2
      rw [ih ys h1 h2]

theorem lexLe_append_left : ∀ p u v, lexLe (p ++ u) (p ++ v) = lexLe u v := by
  intro p
  induction p with
  | nil =>
    intro u v
    rfl
  | cons a as ih =>
    intro u v
    simp [lexLe, ih]

theorem lexLe_append_of : ∀ u v s t, u.length = v.length → lexLe u v = true →
    (u = v → lexLe s t = true) → lexLe (u ++ s) (v ++ t) = true := by
  intro u
  induction u with
  | nil =>
    intro v s t hlen h1 h2
    have hv : v = [] := by
      cases v
      · rfl
      · simp at hlen
    subst hv
    simpa using h2 rfl
  | cons x xs ih =>
    intro v s t hlen h1 h2
    cases v with
    | nil => simp at hlen
    | cons y ys =>
      simp only [List.cons_append, lexLe] at h1 ⊢
      split at h1
      next hxy => simp [hxy]
      next hxy =>
        split at h1
        next hyx => simp at h1
        next hyx =>
          have hxyeq : x = y := by omega
          subst hxyeq
          simp only [lt_self_iff_false, if_false]
          exact ih ys s t (by simpa using hlen) h1 (fun hw => h2 (by rw [hw]))

theorem natToDec_le : ∀ j k, digitLen j = digitLen k → j ≤ k →
    lexLe (natToDec j) (natToDec k) = true := by
  intro j
  induction j using Nat.strong_induction_on with
  | _ j ih =>
    intro k hdig hjk
    by_cases hj : j < 10
    · by_cases hk : k < 10
      · rw [natToDec_eq j, natToDec_eq k, if_pos hj, if_pos hk]
        simp only [lexLe]
        rcases Nat.lt_or_ge (48 + j) (48 + k) with h | h
        · simp [h]
        · have hjk2 : j = k := by omega
          subst hjk2
          simp
      · exfalso
        have h1 := digitLen_small j hj
        have h2 := digitLen_big k hk
        have h3 := digitLen_pos (k / 10)
        omega
    · by_cases hk : k < 10
      · exfalso
        omega
      · rw [natToDec_eq j, natToDec_eq k, if_neg hj, if_neg hk]
        have h1 := digitLen_big j hj
        have h2 := digitLen_big k hk
        have hdig2 : digitLen (j / 10) = digitLen (k / 10) := by omega
        apply lexLe_append_of
        · simpa [digitLen] using hdig2
        · exact ih (j / 10) (by omega) (k / 10) hdig2 (Nat.div_le_div_right hjk)
        · intro heq
          have hdeq : j / 10 = k / 10 := natToDec_inj heq
          have hmod : j % 10 ≤ k % 10 := by omega
          simp only [lexLe]
          rcases Nat.lt_or_ge (48 + j % 10) (48 + k % 10) with h | h
          · simp [h]
          · have hmeq : j % 10 = k % 10 := by omega
            rw [hmeq]
            simp

theorem checkpointFile_le (j k : Nat) (hdig : digitLen j = digitLen k) (hjk : j ≤ k) :
    lexLe (checkpointFile j) (checkpointFile k) = true := by
  unfold checkpointFile
  rw [List.append_assoc, List.append_assoc, lexLe_append_left]
  apply lexLe_append_of
  · exact hdig
  · exact natToDec_le j k hdig hjk
  · intro _
    exact lexLe_refl _

theorem checkpointFile_inj : Function.Injective checkpointFile := by
  intro a b h
  unfold checkpointFile at h
  have h1 := List.append_left_injective (strCodes ".csv") h
  have h2 := List.append_right_injective (strCodes "checkpoint_") h1
  exact natToDec_inj h2

/-! ## Lemmas: the maximum selected by the filename sort -/

theorem foldlMax_mem : ∀ (fs : List (List Nat)) (f : List Nat), fs.foldl maxStep f ∈ f :: fs := by
  intro fs
  induction fs with
  | nil =>
    intro f
    simp
  | cons g gs ih =>
    intro f
    have h := ih (maxStep f g)
    simp only [List.foldl_cons, List.mem_cons] at h ⊢
    rcases h with h | h
    · rw [h]
      unfold maxStep
      split
      · right; left; rfl
      · left; rfl
    · right; right; exact h

theorem foldlMax_ub : ∀ (fs : List (List Nat)) (f x : List Nat), x ∈ f :: fs →
    lexLe x (fs.foldl maxStep f) = true := by
  intro fs
  induction fs with
  | nil =>
    intro f x hx
    simp at hx
    subst hx
    exact lexLe_refl x
  | cons g gs ih =>
    intro f x hx
    simp only [List.foldl_cons]
    have hf1 : lexLe f (maxStep f g) = true := by
      unfold maxStep
      split
      next h => exact h
      next h => exact lexLe_refl f
    have hg1 : lexLe g (maxStep f g) = true := by
      unfold maxStep
      split
      next h => exact lexLe_refl g
      next h =>
        rcases lexLe_total f g with h2 | h2
        · exact absurd h2 h
        · exact h2
    have hmax := ih (maxStep f g) (maxStep f g) (List.mem_cons_self _ _)
    rcases List.mem_cons.mp hx with h | h
    · subst h
      exact lexLe_trans x (maxStep x g) _ hf1 hmax
    · rcases List.mem_cons.mp h with h2 | h2
      · subst h2
        exact lexLe_trans x (maxStep f x) _ hg1 hmax
      · exact ih (maxStep f g) x (List.mem_cons_of_mem _ h2)

theorem lookup_map_pairs {β : Type} (f : Nat → List Nat) (hf : Function.Injective f) :
    ∀ (cps : List (Nat × β)) (k : Nat) (T : β),
      (cps.map Prod.fst).Nodup → (k, T) ∈ cps →
      (cps.map (fun p => (f p.1, p.2))).lookup (f k) = some T := by
  intro cps
  induction cps with
  | nil =>
    intro k T _ hmem
    simp at hmem
  | cons q qs ih =>
    intro k T hnd hmem
    obtain ⟨a, b⟩ := q
    simp only [List.map_cons, List.nodup_cons] at hnd
    by_cases hk : k = a
    · subst hk
      have hT : T = b := by
        rcases List.mem_cons.mp hmem with h | h
        · exact (Prod.mk.injEq _ _ _ _ ▸ h).2
        · exact absurd (List.mem_map_of_mem Prod.fst h) hnd.1
      subst hT
      simp [List.lookup]
    · have hne : (f k == f a) = false := by
        simp only [beq_eq_false_iff_ne, ne_eq]
        intro hcontra
        exact hk (hf hcontra)
      rcases List.mem_cons.mp hmem with h | h
      · exact absurd (congrArg Prod.fst h) hk
      · simp only [List.map_cons, List.lookup, hne]
        exact ih k T hnd.2 h

/-! ## Claim C1: latest-checkpoint selection at startup -/

/-- Claim C1, corrected.  The enricher resumes from the checkpoint whose
filename `checkpoint_{k}.csv` is the lexicographically greatest string
(`sorted(checkpoint_files)[-1]`).  Whenever all existing checkpoint row
indices have the same number of decimal digits, that is the checkpoint
with the greatest row index — the table `T` saved at the maximal index
`k` is the table the run starts from. -/
theorem c1_latest_checkpoint (input : List Row) (cps : List (Nat × List Row)) (k : Nat)
    (T : List Row)
    (hmem : (k, T) ∈ cps)
    (hmax : ∀ j ∈ cps.map Prod.fst, j ≤ k)
    (hdig : ∀ j ∈ cps.map Prod.fst, digitLen j = digitLen k)
    (hnd : (cps.map Prod.fst).Nodup) :
    resumeTable input cps = T := by
  cases cps with
  | nil => simp at hmem
  | cons c cs =>
    have hM : (List.map (fun p => checkpointFile p.1) cs).foldl maxStep (checkpointFile c.1)
        = checkpointFile k := by
      apply lexLe_antisymm
      · have hmm := foldlMax_mem (List.map (fun p => checkpointFile p.1) cs) (checkpointFile c.1)
        have hmm2 : (List.map (fun p => checkpointFile p.1) cs).foldl maxStep (checkpointFile c.1)
            ∈ (c :: cs).map (fun p => checkpointFile p.1) := by
          simpa using hmm
        obtain ⟨p, hp, hMp⟩ := List.mem_map.mp hmm2
        rw [← hMp]
        have hp1 : p.1 ∈ (c :: cs).map Prod.fst := List.mem_map_of_mem Prod.fst hp
        exact checkpointFile_le p.1 k (hdig p.1 hp1) (hmax p.1 hp1)
      · apply foldlMax_ub
        have : checkpointFile k ∈ (c :: cs).map (fun p => checkpointFile p.1) := by
          have := List.mem_map_of_mem (fun p : Nat × List Row => checkpointFile p.1) hmem
          simpa using this
        simpa using this
    show resumeTable input (c :: cs) = T
    unfold resumeTable lastSorted
    simp only [List.map_cons]
    rw [hM]
    have hl := lookup_map_pairs checkpointFile checkpointFile_inj (c :: cs) k T hnd hmem
    simp only [List.map_cons] at hl
    rw [hl]
    rfl

/-- Witness for C1 at a concrete checkpoint set with equal digit counts. -/
theorem c1_witness :
    resumeTable [] [(50, [rowDone]), (99, [rowEmpty])] = [rowEmpty] :=
  c1_latest_checkpoint [] [(50, [rowDone]), (99, [rowEmpty])] 99 [rowEmpty]
    (by decide) (by decide) (by decide) (by decide)

/-- Counterexample to C1 as stated: with checkpoints `checkpoint_50.csv`
and `checkpoint_100.csv` present, the string sort selects
`checkpoint_50.csv` (code point of the character 5 exceeds that of 1), so
the run resumes from the index-50 table, not the index-100 one. -/
theorem c1_counterexample :
    resumeTable [] [(50, [rowDone]), (100, [rowEmpty])] = [rowDone]
      ∧ [rowDone] ≠ [rowEmpty] := by
  constructor
  · decide
  · decide

/-! ## Lemmas: the enrichment loop -/

theorem procRow_of_complete (o : Oracle) (r : Row) (h : rowComplete r = true) :
    procRow o r = r := by
  simp [procRow, processRow, h]

theorem procRow_of_incomplete (o : Oracle) (r : Row) (h : rowComplete r = false) :
    procRow o r = fillRow o r := by
  simp [procRow, processRow, h, fillRow]

theorem fillRow_eq (o : Oracle) (r : Row) :
    fillRow o r = { r with
      attention_ss := some (r.attention_ss.getD (o.ss r.taxon_name)),
      attention_pm := some (r.attention_pm.getD (o.pm r.taxon_name)),
      year_ofd := if r.year_ofd.isNone then o.yr r.taxon_name else r.year_ofd } := by
  obtain ⟨nm, d, oss, opm, oyr⟩ := r
  cases oss <;> cases opm <;> cases oyr <;> simp [fillRow, fillRowQ]

theorem enrichGo_fst (o : Oracle) (B N : Nat) :
    ∀ (todo done : List Row) (cps : List (Nat × List Row)),
      (enrichGo o B N done todo cps).1 = done ++ todo.map (procRow o) := by
  intro todo
  induction todo with
  | nil =>
    intro done cps
    simp [enrichGo]
  | cons r rest ih =>
    intro done cps
    cases hc : rowComplete r with
    | true =>
      rw [show enrichGo o B N done (r :: rest) cps = enrichGo o B N (done ++ [r]) rest cps by
        simp [enrichGo, hc]]
      rw [ih]
      simp [procRow_of_complete o r hc]
    | false =>
      by_cases hck : (done.length + 1) % B = 0 ∨ done.length = N - 1
      · rw [show enrichGo o B N done (r :: rest) cps
            = enrichGo o B N (done ++ [fillRow o r]) rest
                (cps ++ [(done.length + 1, done ++ [fillRow o r] ++ rest)]) by
          simp [enrichGo, hc, hck]]
        rw [ih]
        simp [procRow_of_incomplete o r hc]
      · rw [show enrichGo o B N done (r :: rest) cps
            = enrichGo o B N (done ++ [fillRow o r]) rest cps by
          simp [enrichGo, hc, hck]]
        rw [ih]
        simp [procRow_of_incomplete o r hc]

theorem enrich_taxon_data_fst (o : Oracle) (B : Nat) (t : List Row) :
    (enrich_taxon_data o B t).1 = t.map (procRow o) := by
  unfold enrich_taxon_data
  rw [enrichGo_fst]
  simp

theorem procRow_idem (o : Oracle) (r : Row) : procRow o (procRow o r) = procRow o r := by
  cases hc : rowComplete r with
  | true =>
    rw [procRow_of_complete o r hc, procRow_of_complete o r hc]
  | false =>
    rw [procRow_of_incomplete o r hc, fillRow_eq]
    obtain ⟨nm, d, oss, opm, oyr⟩ := r
    cases oyr with
    | some y =>
      apply procRow_of_complete
      simp [rowComplete]
    | none =>
      simp only [Option.isNone_none, if_true]
      cases hyr : o.yr nm with
      | some y =>
        apply procRow_of_complete
        simp [rowComplete, hyr]
      | none =>
        rw [procRow_of_incomplete, fillRow_eq]
        · simp [hyr]
        · simp [rowComplete, hyr]

/-! ## Claim C3: re-running from the final state changes nothing -/

/-- Claim C3, confirmed.  Running the enricher to completion and then
running the whole pass again starting from the table it produced (which
is exactly the content of its final checkpoint, written unconditionally
after the last row) performs no field mutation: the second pass returns
the identical table, for every starting table, batch size, and (function-
modelled) external services. -/
theorem c3_idempotent_rerun (o : Oracle) (B B2 : Nat) (t : List Row) :
    (enrich_taxon_data o B2 (enrich_taxon_data o B t).1).1 = (enrich_taxon_data o B t).1 := by
  rw [enrich_taxon_data_fst, enrich_taxon_data_fst, List.map_map]
  apply List.map_congr_left
  intro r _
  exact procRow_idem o r

/-! ## Claim C4: complete rows are skipped, present fields untouched -/

/-- Claim C4, confirmed.  In each pass, a row whose three enrichment
fields are all present is skipped outright, with no queries issued; and
for any row, each already-present field is never queried again and its
value is never overwritten. -/
theorem c4_skip_and_preserve (o : Oracle) (r : Row) :
    (rowComplete r = true → processRow o r = (r, []))
    ∧ (r.attention_ss.isSome = true →
        (processRow o r).1.attention_ss = r.attention_ss
          ∧ ∀ n, Query.ss n ∉ (processRow o r).2)
    ∧ (r.attention_pm.isSome = true →
        (processRow o r).1.attention_pm = r.attention_pm
          ∧ ∀ n, Query.pm n ∉ (processRow o r).2)
    ∧ (r.year_ofd.isSome = true →
        (processRow o r).1.year_ofd = r.year_ofd
          ∧ ∀ n, Query.yr n ∉ (processRow o r).2) := by
  obtain ⟨nm, d, oss, opm, oyr⟩ := r
  refine ⟨?_, ?_, ?_, ?_⟩ <;>
    cases oss <;> cases opm <;> cases oyr <;>
      simp [processRow, fillRowQ, rowComplete]

/-- Witness for C4: a fully enriched row is returned untouched with no
queries. -/
theorem c4_witness : processRow oZero rowDone = (rowDone, []) :=
  (c4_skip_and_preserve oZero rowDone).1 (by decide)

/-! ## Claim C9: checkpoint files are never overwritten -/

theorem enrichGo_cps_fst (o : Oracle) (B N : Nat) :
    ∀ (todo done : List Row) (cps : List (Nat × List Row)),
      (cps.map Prod.fst).Pairwise (· < ·) →
      (∀ j ∈ cps.map Prod.fst, j ≤ done.length) →
      ((enrichGo o B N done todo cps).2.map Prod.fst).Pairwise (· < ·) := by
  intro todo
  induction todo with
  | nil =>
    intro done cps h1 h2
    simpa [enrichGo] using h1
  | cons r rest ih =>
    intro done cps h1 h2
    have hlen : ∀ x : Row, (done ++ [x]).length = done.length + 1 := by
      intro x
      simp
    cases hc : rowComplete r with
    | true =>
      rw [show enrichGo o B N done (r :: rest) cps = enrichGo o B N (done ++ [r]) rest cps by
        simp [enrichGo, hc]]
      exact ih (done ++ [r]) cps h1 (fun j hj => by
        have := h2 j hj
        rw [hlen]
        omega)
    | false =>
      by_cases hck : (done.length + 1) % B = 0 ∨ done.length = N - 1
      · rw [show enrichGo o B N done (r :: rest) cps
            = enrichGo o B N (done ++ [fillRow o r]) rest
                (cps ++ [(done.length + 1, done ++ [fillRow o r] ++ rest)]) by
          simp [enrichGo, hc, hck]]
        apply ih
        · simp only [List.map_append, List.map_cons, List.map_nil]
          rw [List.pairwise_append]
          refine ⟨h1, by simp, ?_⟩
          intro a ha b hb
          simp only [List.mem_cons, List.not_mem_nil, or_false] at hb
          subst hb
          have := h2 a ha
          omega
        · intro j hj
          simp only [List.map_append, List.map_cons, List.map_nil, List.mem_append,
            List.mem_cons, List.not_mem_nil, or_false] at hj
          rw [hlen]
          rcases hj with hj | hj
          · have := h2 j hj
            omega
          · omega
      · rw [show enrichGo o B N done (r :: rest) cps
            = enrichGo o B N (done ++ [fillRow o r]) rest cps by
          simp [enrichGo, hc, hck]]
        apply ih
        · exact h1
        · intro j hj
          have := h2 j hj
          rw [hlen]
          omega

/-- Claim C9, corrected (within-run part).  All checkpoint files written
during one run of the enricher have pairwise distinct filenames (row
indices strictly increase along the run), so no write of a run
overwrites an earlier write of the same run. -/
theorem c9_nodup_within_run (o : Oracle) (B : Nat) (t : List Row) :
    ((enrich_taxon_data o B t).2.map (fun p => checkpointFile p.1)).Nodup := by
  have hp := enrichGo_cps_fst o B t.length t [] [] (by simp) (by simp)
  have hnd : ((enrichGo o B t.length [] t []).2.map Prod.fst).Nodup :=
    List.Pairwise.imp (fun hab => Nat.ne_of_lt hab) hp
  unfold enrich_taxon_data
  have hcomp : (fun p : Nat × List Row => checkpointFile p.1)
      = checkpointFile ∘ Prod.fst := rfl
  rw [hcomp, ← List.map_map]
  exact hnd.map checkpointFile_inj

/-- Counterexample to C9 as stated: a run over one row whose Wikidata
year lookup fails writes `checkpoint_1.csv`; re-running from the
produced table (the resumed run) reprocesses the still-incomplete row
and writes `checkpoint_1.csv` again, overwriting the first run's file. -/
theorem c9_counterexample :
    (enrich_taxon_data oZero 1 [rowEmpty]).2.map (fun p => checkpointFile p.1)
        = [checkpointFile 1]
      ∧ (enrich_taxon_data oZero 1
            (enrich_taxon_data oZero 1 [rowEmpty]).1).2.map (fun p => checkpointFile p.1)
        = [checkpointFile 1] := by
  constructor
  · decide
  · decide

/-! ## Claim C6: checkpoint cadence -/

theorem enrichGo_cps_len (o : Oracle) (B N : Nat) :
    ∀ (todo done : List Row) (cps : List (Nat × List Row)),
      (∀ r ∈ todo, rowComplete r = false) →
      (enrichGo o B N done todo cps).2.length
        = cps.length + ((List.range' done.length todo.length).filter
            (fun idx => decide ((idx + 1) % B = 0) || decide (idx = N - 1))).length := by
  intro todo
  induction todo with
  | nil =>
    intro done cps h
    simp [enrichGo]
  | cons r rest ih =>
    intro done cps h
    have hr : rowComplete r = false := h r (List.mem_cons_self r rest)
    have htail : ∀ x ∈ rest, rowComplete x = false :=
      fun x hx => h x (List.mem_cons_of_mem _ hx)
    have hrng : List.range' done.length (r :: rest).length
        = done.length :: List.range' (done.length + 1) rest.length := by
      rw [List.length_cons]
      exact List.range'_succ done.length rest.length 1
    by_cases hck : (done.length + 1) % B = 0 ∨ done.length = N - 1
    · rw [show enrichGo o B N done (r :: rest) cps
          = enrichGo o B N (done ++ [fillRow o r]) rest
              (cps ++ [(done.length + 1, done ++ [fillRow o r] ++ rest)]) by
        simp [enrichGo, hr, hck]]
      rw [ih (done ++ [fillRow o r]) _ htail]
      have hpred : (decide ((done.length + 1) % B = 0) || decide (done.length = N - 1)) = true := by
        simp only [Bool.or_eq_true, decide_eq_true_eq]
        exact hck
      rw [hrng, List.filter_cons, hpred, if_pos rfl]
      have hdl : (done ++ [fillRow o r]).length = done.length + 1 := by simp
      rw [hdl]
      simp only [List.length_append, List.length_cons, List.length_nil]
      omega
    · rw [show enrichGo o B N done (r :: rest) cps
          = enrichGo o B N (done ++ [fillRow o r]) rest cps by
        simp [enrichGo, hr, hck]]
      rw [ih (done ++ [fillRow o r]) _ htail]
      have hpred : (decide ((done.length + 1) % B = 0) || decide (done.length = N - 1)) = false := by
        simp only [Bool.or_eq_false_iff, decide_eq_false_iff_not]
        push_neg at hck
        exact hck
      rw [hrng, List.filter_cons, hpred, if_neg (by simp)]
      have hdl : (done ++ [fillRow o r]).length = done.length + 1 := by simp
      rw [hdl]

theorem range_mult_count (B : Nat) :
    ∀ m, ((List.range m).filter (fun idx => decide ((idx + 1) % B = 0))).length = m / B := by
  intro m
  induction m with
  | zero => simp
  | succ m ih =>
    rw [List.range_succ, List.filter_append, List.length_append, ih]
    by_cases hd : (m + 1) % B = 0
    · have hdvd : B ∣ m + 1 := Nat.dvd_of_mod_eq_zero hd
      rw [Nat.succ_div, if_pos hdvd]
      simp [hd]
    · have hdvd : ¬ B ∣ m + 1 := by
        intro hcontra
        obtain ⟨c, hc⟩ := hcontra
        rw [hc, Nat.mul_mod_right] at hd
        exact hd rfl
      rw [Nat.succ_div, if_neg hdvd]
      simp [hd]

theorem range_ckpt_count (B N : Nat) (hB : 0 < B) :
    ((List.range N).filter
        (fun idx => decide ((idx + 1) % B = 0) || decide (idx = N - 1))).length
      = (N + B - 1) / B := by
  cases N with
  | zero =>
    simp [Nat.div_eq_of_lt (show B - 1 < B by omega)]
  | succ m =>
    rw [List.range_succ, List.filter_append, List.length_append]
    have hcongr : (List.range m).filter
          (fun idx => decide ((idx + 1) % B = 0) || decide (idx = m + 1 - 1))
        = (List.range m).filter (fun idx => decide ((idx + 1) % B = 0)) := by
      apply List.filter_congr
      intro x hx
      have hxm : x < m := List.mem_range.mp hx
      have hxm2 : (decide (x = m + 1 - 1)) = false := by
        simp only [decide_eq_false_iff_not]
        omega
      rw [hxm2, Bool.or_false]
    rw [hcongr, range_mult_count]
    have hlast : ((List.filter
          (fun idx => decide ((idx + 1) % B = 0) || decide (idx = m + 1 - 1)) [m])).length
        = 1 := by
      simp
    rw [hlast]
    have harith : m + 1 + B - 1 = m + B := by omega
    rw [harith, Nat.add_div_right m hB]

/-- Claim C6, corrected.  For a run with batch size `B ≥ 1` in which no
row is complete at the start (in particular a first run over a fresh
table), the number of checkpoints written is exactly the ceiling of
`N / B` — a checkpoint is written after the last row even when `N` is not
a multiple of `B`.  (Runs that skip already-complete rows write fewer:
the skip path bypasses the checkpoint statement.) -/
theorem c6_checkpoint_cadence (o : Oracle) (B : Nat) (t : List Row) (hB : 0 < B)
    (h : ∀ r ∈ t, rowComplete r = false) :
    (enrich_taxon_data o B t).2.length = (t.length + B - 1) / B := by
  unfold enrich_taxon_data
  rw [enrichGo_cps_len o B t.length t [] [] h]
  simp only [List.length_nil, Nat.zero_add]
  rw [← List.range_eq_range']
  exact range_ckpt_count B t.length hB

/-- Witness for C6: three incomplete rows, batch size two, two
checkpoints. -/
theorem c6_witness :
    0 < 2 ∧ (∀ r ∈ [rowEmpty, rowEmpty2, rowEmpty3], rowComplete r = false)
      ∧ (enrich_taxon_data oZero 2 [rowEmpty, rowEmpty2, rowEmpty3]).2.length = (3 + 2 - 1) / 2 :=
  ⟨by decide, by decide,
    c6_checkpoint_cadence oZero 2 [rowEmpty, rowEmpty2, rowEmpty3] (by decide) (by decide)⟩

/-- Counterexample to C6 as stated: a run over one already-complete row
with batch size one writes no checkpoint at all (the skip path bypasses
the checkpoint statement), while the ceiling of 1/1 is 1. -/
theorem c6_counterexample :
    (enrich_taxon_data oZero 1 [rowDone]).2.length = 0 ∧ (1 + 1 - 1) / 1 = 1 := by
  constructor
  · decide
  · decide

/-! ## Claim C7: external failures are soft and local -/

theorem apiFailed_ss (a : ApiResp SSBody) (h : apiFailed a = true) :
    get_semantic_scholar_attention a = 0 := by
  cases a with
  | exn => rfl
  | ok status body =>
    by_cases hs : status = 200
    · subst hs
      simp only [apiFailed, bne_self_eq_false, Bool.false_or,
        Option.isNone_iff_eq_none] at h
      subst h
      rfl
    · simp [get_semantic_scholar_attention, hs]

theorem apiFailed_pm (a : ApiResp PMBody) (h : apiFailed a = true) :
    get_pubmed_attention a = 0 := by
  cases a with
  | exn => rfl
  | ok status body =>
    by_cases hs : status = 200
    · subst hs
      simp only [apiFailed, bne_self_eq_false, Bool.false_or,
        Option.isNone_iff_eq_none] at h
      subst h
      rfl
    · simp [get_pubmed_attention, hs]

theorem apiFailed_yr (a : ApiResp WDBody) (h : apiFailed a = true) :
    get_wikidata_year a = none := by
  cases a with
  | exn => rfl
  | ok status body =>
    by_cases hs : status = 200
    · subst hs
      simp only [apiFailed, bne_self_eq_false, Bool.false_or,
        Option.isNone_iff_eq_none] at h
      subst h
      rfl
    · simp [get_wikidata_year, hs]

/-- Claim C7, confirmed.  Every external-call failure (request exception,
non-200 status, or unparseable body) is converted at the call boundary
into the default value — `0` for the two attention counts, absent for the
year — and when the loop body then runs on a not-yet-complete row, the
failed field is recorded with that default while the remaining fields are
still processed: both attention fields of the processed row are always
present, so no failure aborts the loop. -/
theorem c7_failures_soft (e : ApiEnv) (r : Row) (h : rowComplete r = false) :
    (∀ a : ApiResp SSBody, apiFailed a = true → get_semantic_scholar_attention a = 0)
    ∧ (∀ a : ApiResp PMBody, apiFailed a = true → get_pubmed_attention a = 0)
    ∧ (∀ a : ApiResp WDBody, apiFailed a = true → get_wikidata_year a = none)
    ∧ (r.attention_ss = none → apiFailed (e.ssResp r.taxon_name) = true →
        (processRow (envOracle e) r).1.attention_ss = some 0)
    ∧ (r.attention_pm = none → apiFailed (e.pmResp r.taxon_name) = true →
        (processRow (envOracle e) r).1.attention_pm = some 0)
    ∧ (r.year_ofd = none → apiFailed (e.yrResp r.taxon_name) = true →
        (processRow (envOracle e) r).1.year_ofd = none)
    ∧ (processRow (envOracle e) r).1.attention_ss.isSome = true
    ∧ (processRow (envOracle e) r).1.attention_pm.isSome = true := by
  have hp : (processRow (envOracle e) r).1 = fillRow (envOracle e) r := by
    simp [processRow, h, fillRow]
  refine ⟨apiFailed_ss, apiFailed_pm, apiFailed_yr, ?_, ?_, ?_, ?_, ?_⟩
  · intro h1 h2
    rw [hp, fillRow_eq]
    simp [h1, envOracle, apiFailed_ss _ h2]
  · intro h1 h2
    rw [hp, fillRow_eq]
    simp [h1, envOracle, apiFailed_pm _ h2]
  · intro h1 h2
    rw [hp, fillRow_eq]
    simp [h1, envOracle, apiFailed_yr _ h2]
  · rw [hp, fillRow_eq]
    simp
  · rw [hp, fillRow_eq]
    simp

/-- Witness for C7: with every request raising, an empty row still comes
back with both attention fields recorded as zero. -/
theorem c7_witness :
    (processRow (envOracle envFail) rowEmpty).1.attention_ss = some 0
      ∧ (processRow (envOracle envFail) rowEmpty).1.attention_pm = some 0 :=
  ⟨(c7_failures_soft envFail rowEmpty (by decide)).2.2.2.1 (by decide) (by decide),
   (c7_failures_soft envFail rowEmpty (by decide)).2.2.2.2.1 (by decide) (by decide)⟩

/-! ## Claim C8: the chunk splitter -/

theorem split_flatten {α : Type} (C : Nat) :
    ∀ (n : Nat) (l : List α), l.length ≤ n → (split_large_csv C l).flatten = l := by
  intro n
  induction n with
  | zero =>
    intro l h
    have hl : l = [] := List.length_eq_zero.mp (Nat.le_zero.mp h)
    subst hl
    simp [split_large_csv]
  | succ n ih =>
    intro l h
    cases l with
    | nil => simp [split_large_csv]
    | cons x xs =>
      simp only [split_large_csv, List.flatten_cons]
      rw [ih (xs.drop (C - 1)) (by simp [List.length_drop]; simp at h; omega)]
      simp [List.take_append_drop]

theorem split_chunk_le {α : Type} (C : Nat) (hC : 0 < C) :
    ∀ (n : Nat) (l : List α), l.length ≤ n → ∀ c ∈ split_large_csv C l, c.length ≤ C := by
  intro n
  induction n with
  | zero =>
    intro l h c hc
    have hl : l = [] := List.length_eq_zero.mp (Nat.le_zero.mp h)
    subst hl
    simp [split_large_csv] at hc
  | succ n ih =>
    intro l h c hc
    cases l with
    | nil => simp [split_large_csv] at hc
    | cons x xs =>
      simp only [split_large_csv, List.mem_cons] at hc
      rcases hc with hc | hc
      · subst hc
        simp only [List.length_cons, List.length_take]
        omega
      · exact ih (xs.drop (C - 1)) (by simp [List.length_drop]; simp at h; omega) c hc

theorem chunkLensAux_fuel (C : Nat) (hC : 0 < C) :
    ∀ n f g, n ≤ f → n ≤ g → chunkLensAux C f n = chunkLensAux C g n := by
  intro n
  induction n using Nat.strong_induction_on with
  | _ n ihn =>
    intro f g hf hg
    cases n with
    | zero =>
      cases f <;> cases g <;> rfl
    | succ m =>
      obtain ⟨f, rfl⟩ : ∃ k, f = k + 1 := ⟨f - 1, by omega⟩
      obtain ⟨g, rfl⟩ : ∃ k, g = k + 1 := ⟨g - 1, by omega⟩
      simp only [chunkLensAux]
      rw [ihn (m + 1 - C) (by omega) f (m + 1 - C) (by omega) le_rfl,
        ihn (m + 1 - C) (by omega) g (m + 1 - C) (by omega) le_rfl]

theorem split_lengths {α : Type} (C : Nat) (hC : 0 < C) :
    ∀ (n : Nat) (l : List α), l.length ≤ n →
      (split_large_csv C l).map List.length = chunkLens C l.length := by
  intro n
  induction n with
  | zero =>
    intro l h
    have hl : l = [] := List.length_eq_zero.mp (Nat.le_zero.mp h)
    subst hl
    simp [split_large_csv, chunkLens, chunkLensAux]
  | succ n ih =>
    intro l h
    cases l with
    | nil => simp [split_large_csv, chunkLens, chunkLensAux]
    | cons x xs =>
      simp only [split_large_csv, List.map_cons, List.length_cons]
      rw [ih (xs.drop (C - 1)) (by simp [List.length_drop]; simp at h; omega)]
      unfold chunkLens
      rw [show chunkLensAux C (xs.length + 1) (xs.length + 1)
          = min C (xs.length + 1) :: chunkLensAux C xs.length (xs.length + 1 - C) from rfl]
      have hdrop : (xs.drop (C - 1)).length = xs.length + 1 - C := by
        simp [List.length_drop]
        omega
      rw [hdrop]
      rw [chunkLensAux_fuel C hC (xs.length + 1 - C) (xs.length + 1 - C) xs.length
        le_rfl (by omega)]
      congr 1
      simp only [List.length_take]
      omega

theorem chunkFileName_inj (base : List Nat) : Function.Injective (chunkFileName base) := by
  intro a b h
  unfold chunkFileName at h
  have h1 := List.append_left_injective (strCodes ".csv") h
  have h2 := List.append_right_injective (base ++ strCodes "_chunk_") h1
  exact natToDec_inj h2

/-- Claim C8, confirmed.  For every record source and positive chunk
row-count `C`: the in-order concatenation of all chunks is row-identical
to the source; each chunk holds at most `C` consecutive records; the
sequence of chunk sizes is exactly `chunkLens C` of the source size
(so 2,500,000 rows with `C` = 1,000,000 give chunks of 1,000,000;
1,000,000; 500,000 — see the witness); and the zero-based chunk file
names `{base}_chunk_{i}.csv` are pairwise distinct, in source order. -/
theorem c8_chunk_split {α : Type} (C : Nat) (hC : 0 < C) (l : List α) (base : List Nat) :
    (split_large_csv C l).flatten = l
    ∧ (∀ c ∈ split_large_csv C l, c.length ≤ C)
    ∧ (split_large_csv C l).map List.length = chunkLens C l.length
    ∧ ((List.range (split_large_csv C l).length).map (chunkFileName base)).Nodup := by
  refine ⟨split_flatten C l.length l le_rfl, split_chunk_le C hC l.length l le_rfl,
    split_lengths C hC l.length l le_rfl, ?_⟩
  exact (List.nodup_range _).map (chunkFileName_inj base)

/-- Witness for C8 at the spec's example size: 2,500,000 rows with chunk
size 1,000,000 yield chunks of sizes 1,000,000; 1,000,000; 500,000, and
their concatenation is the source. -/
theorem c8_witness :
    0 < 1000000
    ∧ (split_large_csv 1000000 (List.replicate 2500000 (0 : Nat))).flatten
        = List.replicate 2500000 (0 : Nat)
    ∧ (split_large_csv 1000000 (List.replicate 2500000 (0 : Nat))).map List.length
        = chunkLens 1000000 2500000
    ∧ chunkLens 1000000 2500000 = [1000000, 1000000, 500000] := by
  have h := c8_chunk_split 1000000 (by decide) (List.replicate 2500000 (0 : Nat)) []
  refine ⟨by decide, h.1, ?_, by decide⟩
  have h2 := h.2.2.1
  rw [List.length_replicate] at h2
  exact h2

/-! ## Lemmas: the Degree Aggregator -/

theorem speciesList_filterMap (rows : List Interaction) :
    (speciesList rows).filterMap id
      = rows.filterMap Interaction.sourceTaxonName
        ++ rows.filterMap Interaction.targetTaxonName := by
  unfold speciesList
  rw [List.filterMap_append]
  congr 1
  · rw [List.filterMap_map]
    rfl
  · rw [List.filterMap_map]
    rfl

theorem allSpecies_eq_flatten :
    ∀ (chunks : List (List Interaction)) (acc : List (Option String)),
      chunks.foldl (fun a c => a ++ speciesList c) acc
        = acc ++ (chunks.map speciesList).flatten := by
  intro chunks
  induction chunks with
  | nil =>
    intro acc
    simp
  | cons c cs ih =>
    intro acc
    simp only [List.foldl_cons, List.map_cons, List.flatten_cons]
    rw [ih]
    simp [List.append_assoc]

theorem flatten_two_perm (f g : List Interaction → List (Option String)) :
    ∀ l : List (List Interaction),
      ((l.map (fun c => f c ++ g c)).flatten).Perm
        ((l.map f).flatten ++ (l.map g).flatten) := by
  intro l
  induction l with
  | nil => simp
  | cons c cs ih =>
    simp only [List.map_cons, List.flatten_cons]
    refine (ih.append_left (f c ++ g c)).trans ?_
    have h2 : ((g c ++ (cs.map f).flatten)).Perm ((cs.map f).flatten ++ g c) :=
      List.perm_append_comm
    have h3 := (h2.append_right ((cs.map g).flatten)).append_left (f c)
    simpa [List.append_assoc] using h3

theorem allSpecies_perm (chunks : List (List Interaction)) :
    (allSpecies chunks).Perm (speciesList chunks.flatten) := by
  have h1 : allSpecies chunks = (chunks.map speciesList).flatten := by
    have h := allSpecies_eq_flatten chunks []
    simpa [allSpecies] using h
  rw [h1]
  rw [show speciesList chunks.flatten
      = (chunks.flatten).map Interaction.sourceTaxonName
        ++ (chunks.flatten).map Interaction.targetTaxonName from rfl]
  rw [List.map_flatten, List.map_flatten]
  exact flatten_two_perm (fun c => c.map Interaction.sourceTaxonName)
    (fun c => c.map Interaction.targetTaxonName) chunks

theorem insertByCountDesc_perm (p : String × Nat) :
    ∀ l, (insertByCountDesc p l).Perm (p :: l) := by
  intro l
  induction l with
  | nil => exact List.Perm.refl _
  | cons q qs ih =>
    simp only [insertByCountDesc]
    split
    · exact List.Perm.refl _
    · exact (ih.cons q).trans (List.Perm.swap p q qs)

theorem sortByCountDesc_perm : ∀ l, (sortByCountDesc l).Perm l := by
  intro l
  induction l with
  | nil => exact List.Perm.refl _
  | cons p ps ih =>
    simp only [sortByCountDesc]
    exact (insertByCountDesc_perm p (sortByCountDesc ps)).trans (ih.cons p)

theorem lookup_of_values (f : String → Nat) :
    ∀ (t : List (String × Nat)) (n : String), (∀ p ∈ t, p.2 = f p.1) →
      t.lookup n = if n ∈ t.map Prod.fst then some (f n) else none := by
  intro t
  induction t with
  | nil =>
    intro n h
    simp
  | cons q qs ih =>
    intro n h
    obtain ⟨a, b⟩ := q
    have hb : b = f a := h (a, b) (List.mem_cons_self _ _)
    by_cases hn : n = a
    · subst hn
      simp [List.lookup, hb]
    · have hbeq : (n == a) = false := by
        simp [hn]
      simp only [List.lookup, hbeq, List.map_cons, List.mem_cons]
      rw [ih n (fun p hp => h p (List.mem_cons_of_mem _ hp))]
      have hcond : (n = a ∨ n ∈ List.map Prod.fst qs) ↔ n ∈ List.map Prod.fst qs :=
        or_iff_right hn
      rw [if_congr hcond rfl rfl]

theorem value_counts_lookup (l : List (Option String)) (n : String) :
    (value_counts l).lookup n =
      if 0 < (l.filterMap id).count n then some ((l.filterMap id).count n) else none := by
  have hperm : (value_counts l).Perm
      (((l.filterMap id).dedup).map (fun m => (m, (l.filterMap id).count m))) :=
    sortByCountDesc_perm _
  have hvals : ∀ p ∈ value_counts l, p.2 = (l.filterMap id).count p.1 := by
    intro p hp
    have hp2 := hperm.mem_iff.mp hp
    obtain ⟨m, hm, hpm⟩ := List.mem_map.mp hp2
    rw [← hpm]
  rw [lookup_of_values (fun m => (l.filterMap id).count m) (value_counts l) n hvals]
  have hkeys : (n ∈ (value_counts l).map Prod.fst) ↔ 0 < (l.filterMap id).count n := by
    rw [List.mem_map]
    constructor
    · rintro ⟨p, hp, hfst⟩
      have hp2 := hperm.mem_iff.mp hp
      obtain ⟨m, hm, hpm⟩ := List.mem_map.mp hp2
      rw [← hfst, ← hpm]
      exact List.count_pos_iff.mpr (List.mem_dedup.mp hm)
    · intro hc
      exact ⟨(n, (l.filterMap id).count n),
        hperm.mem_iff.mpr (List.mem_map.mpr
          ⟨n, List.mem_dedup.mpr (List.count_pos_iff.mp hc), rfl⟩), rfl⟩
  by_cases hc : 0 < (l.filterMap id).count n
  · rw [if_pos (hkeys.mpr hc), if_pos hc]
  · rw [if_neg (fun hmem => hc (hkeys.mp hmem)), if_neg hc]

/-! ## Claim C2: chunked aggregation matches the one-pass table -/

/-- Claim C2, confirmed.  For every partition of the dataset into chunks
whose in-order concatenation is the dataset, the degree table computed by
the chunked aggregator, read as a mapping from taxon name to count,
equals the mapping computed by the one-pass aggregator over the whole
dataset. -/
theorem c2_chunked_matches_whole (chunks : List (List Interaction)) (rows : List Interaction)
    (h : chunks.flatten = rows) :
    tableAsMap (process_chunks chunks) = tableAsMap (restructure_data rows) := by
  subst h
  funext n
  unfold tableAsMap process_chunks restructure_data
  rw [value_counts_lookup, value_counts_lookup]
  have hcnt : ((allSpecies chunks).filterMap id).count n
      = ((speciesList chunks.flatten).filterMap id).count n :=
    ((allSpecies_perm chunks).filterMap id).count_eq n
  rw [hcnt]

/-- Witness for C2 at a concrete two-chunk dataset. -/
theorem c2_witness :
    chunksW.flatten = rowsW
      ∧ tableAsMap (process_chunks chunksW) = tableAsMap (restructure_data rowsW) :=
  ⟨rfl, c2_chunked_matches_whole chunksW rowsW rfl⟩

/-! ## Claim C5: the degree sum invariant -/

/-- Claim C5, confirmed.  The degrees in the aggregated table sum to the
total number of name occurrences in the input: the number of records
carrying a source name plus the number of records carrying a target
name. -/
theorem c5_degree_sum (rows : List Interaction) :
    ((restructure_data rows).map Prod.snd).sum
      = (rows.filterMap Interaction.sourceTaxonName).length
        + (rows.filterMap Interaction.targetTaxonName).length := by
  unfold restructure_data value_counts
  rw [((sortByCountDesc_perm _).map Prod.snd).sum_eq]
  rw [List.map_map]
  rw [show (Prod.snd ∘ fun n : String => (n, ((speciesList rows).filterMap id).count n))
      = fun n => ((speciesList rows).filterMap id).count n from rfl]
  rw [List.sum_map_count_dedup_eq_length]
  rw [speciesList_filterMap]
  rw [List.length_append]

/-! ## Claim C10: missing names contribute nothing -/

theorem count_filterMap_eq_countP (f : Interaction → Option String) (n : String) :
    ∀ rows : List Interaction,
      (rows.filterMap f).count n = rows.countP (fun r => f r == some n) := by
  intro rows
  induction rows with
  | nil => simp
  | cons r rest ih =>
    rw [List.filterMap_cons, List.countP_cons]
    cases hfr : f r with
    | none => simp [hfr, ih]
    | some m =>
      simp only [hfr]
      rw [List.count_cons, ih]
      simp

/-- Claim C10, confirmed.  Each entry of the degree table counts exactly
the records whose source field, respectively target field, carries that
name — so missing (null) fields contribute nothing to any count — and
appending a record with both names missing leaves the degree table
unchanged; no entry for a null name can exist. -/
theorem c10_null_names_excluded (rows : List Interaction) :
    (∀ p ∈ restructure_data rows,
        p.2 = rows.countP (fun r => r.sourceTaxonName == some p.1)
            + rows.countP (fun r => r.targetTaxonName == some p.1))
    ∧ restructure_data (rows ++ [{ sourceTaxonName := none, targetTaxonName := none }])
        = restructure_data rows := by
  constructor
  · intro p hp
    have hperm : (restructure_data rows).Perm
        ((((speciesList rows).filterMap id).dedup).map
          (fun m => (m, ((speciesList rows).filterMap id).count m))) :=
      sortByCountDesc_perm _
    have hp2 := hperm.mem_iff.mp hp
    obtain ⟨m, hm, hpm⟩ := List.mem_map.mp hp2
    rw [← hpm]
    have hcount : ((speciesList rows).filterMap id).count m
        = rows.countP (fun r => r.sourceTaxonName == some m)
          + rows.countP (fun r => r.targetTaxonName == some m) := by
      rw [speciesList_filterMap, List.count_append,
        count_filterMap_eq_countP Interaction.sourceTaxonName m rows,
        count_filterMap_eq_countP Interaction.targetTaxonName m rows]
    exact hcount
  · have hval : (speciesList
          (rows ++ [{ sourceTaxonName := none, targetTaxonName := none }])).filterMap id
        = (speciesList rows).filterMap id := by
      rw [speciesList_filterMap, speciesList_filterMap]
      simp
    unfold restructure_data value_counts
    rw [hval]

/-- Witness for C10: in the concrete dataset the taxon appearing once as
a source and once as a target has degree two; the record with both names
missing is not counted. -/
theorem c10_witness :
    ("Mus musculus", 2) ∈ restructure_data rowsW
      ∧ (("Mus musculus", 2) : String × Nat).2
        = rowsW.countP (fun r => r.sourceTaxonName == some ("Mus musculus", 2).1)
          + rowsW.countP (fun r => r.targetTaxonName == some ("Mus musculus", 2).1) :=
  ⟨by decide, (c10_null_names_excluded rowsW).1 ("Mus musculus", 2) (by decide)⟩

end ENSA
